import Mathlib

/-!
Verification development for the asset- and entity-state core of the
`freefall` repository (Go): the particle lifecycle manager (`Dust`,
`Dusts` in `main.go`) and the sprite/sound asset managers (`assets`
package).  Each Go function is shallowly embedded as an executable Lean
definition; the theorems at the end of the file settle the specification
claims against those definitions.
-/

/-! ## Particle lifecycle manager (`main.go`)

`Dust` is a particle with an integer position.  Go's `Dusts` is a slice
of pointers `[]*Dust`; we model the pointees in an allocation-ordered
`heap` and the slice as a list of heap indices, so that the pointer
aliasing produced by the in-place removal (`append((*ds)[:i],
(*ds)[i+1:]...)` executed while ranging over the stale slice header) is
represented exactly.

Modelled from the spec: the board dimensions `nokia.GameSize` come from
the `nokia` package, which is not among the provided sources; following
the spec they are the parameters `W` (boardWidth) and `H` (boardHeight),
with spawns at a random x in `[0, boardWidth)` and y fixed at
`boardHeight + 1`.  `rand.Intn W` is modelled as `r % W` for an
arbitrary natural `r` supplied per tick (for `W > 0` this ranges over
exactly `[0, W)`; Go's `rand.Intn` would reject `W = 0`).
-/

/-- A single dust particle: position `(x, y)` (Go `Dust` holding an
`image.Point`). -/
structure Dust where
  x : Int
  y : Int
deriving Repr, DecidableEq

/-- `func (d *Dust) Update()`: move the dust up by decrementing y. -/
def Dust.Update (d : Dust) : Dust := { d with y := d.y - 1 }

/-- Write `d.Update()` through the pointer at heap index `i`
(out-of-range indices leave the heap unchanged; they never occur in
reachable states). -/
def decY : List Dust → Nat → List Dust
  | [], _ => []
  | d :: ds, 0 => d.Update :: ds
  | d :: ds, n + 1 => d :: decY ds n

/-- Read the y-coordinate through the pointer at heap index `i`. -/
def yAt (heap : List Dust) (i : Nat) : Int :=
  match heap[i]? with
  | some d => d.y
  | none => 0

/-- Effect of `*ds = append((*ds)[:i], (*ds)[i+1:]...)` on the backing
array `B` of the range loop's snapshot, when the current slice length is
`L`: slots `i .. L-2` receive the old `B[i+1 .. L-1]`, slots from `L-1`
on are untouched (the slot `L-1` keeps its old, now stale, pointer). -/
def removeShift (B : List Nat) (i L : Nat) : List Nat :=
  B.take i ++ (B.drop (i + 1)).take (L - i - 1) ++ B.drop (L - 1)

/-- State during the advance-and-cull pass of `Dusts.Update`: the heap of
pointees, the backing array of the `range` snapshot (its length is the
snapshot length and never changes), and the current length `live` of
`*ds`. -/
structure PassState where
  heap : List Dust
  back : List Nat
  live : Nat
deriving Repr, DecidableEq

/-- One iteration `i` of `for i, d := range *ds`: read the pointer at
snapshot slot `i`, run `d.Update()`, and if the pointee's y is now
negative execute the in-place removal.  Go panics (modelled as `none`)
when the removal re-slices with `i+1` beyond the current length. -/
def passStep (p : PassState) (i : Nat) : Option PassState :=
  match p.back[i]? with
  | none => none
  | some d =>
    let heap := decY p.heap d
    if yAt heap d < 0 then
      if i + 1 ≤ p.live then
        some ⟨heap, removeShift p.back i p.live, p.live - 1⟩
      else
        none
    else
      some ⟨heap, p.back, p.live⟩

/-- Run the advance-and-cull pass over the listed snapshot indices. -/
def runPassAux (p : PassState) : List Nat → Option PassState
  | [] => some p
  | i :: is =>
    match passStep p i with
    | none => none
    | some q => runPassAux q is

/-- `type Dusts []*Dust`, with the pointees made explicit: `heap` holds
every allocated dust in allocation order and `ids` holds the heap
indices currently in the slice. -/
structure Dusts where
  heap : List Dust
  ids : List Nat
deriving Repr, DecidableEq

/-- `const maxDusts = 5` from `Dusts.Update`. -/
def maxDusts : Nat := 5

/-- The spawn block of `Dusts.Update`: `if len(*ds) < maxDusts { dsX :=
rand.Intn(W); *ds = append(*ds, &Dust{image.Pt(dsX, H+1)}) }`. -/
def spawnStep (W : Nat) (H : Int) (r : Nat) (ds : Dusts) : Dusts :=
  if ds.ids.length < maxDusts then
    ⟨ds.heap ++ [⟨((r % W : Nat) : Int), H + 1⟩], ds.ids ++ [ds.heap.length]⟩
  else ds

/-- `func (ds *Dusts) Update()`: spawn one dust at `(rand.Intn W, H+1)`
when under capacity, then run `for i, d := range *ds { d.Update(); if
d.Coords.Y < 0 { *ds = append((*ds)[:i], (*ds)[i+1:]...) } }`.  The
range snapshot is taken after the spawn, so its length is the post-spawn
length. -/
def Dusts.Update (W : Nat) (H : Int) (r : Nat) (ds : Dusts) : Option Dusts :=
  let ds1 := spawnStep W H r ds
  match runPassAux ⟨ds1.heap, ds1.ids, ds1.ids.length⟩ (List.range ds1.ids.length) with
  | none => none
  | some p => some ⟨p.heap, p.back.take p.live⟩

/-- `Dusts{}`: the game starts with an empty particle collection. -/
def emptyDusts : Dusts := ⟨[], []⟩

/-- Iterate `Dusts.Update` over a list of per-tick random draws. -/
def runUpdates (W : Nat) (H : Int) : List Nat → Dusts → Option Dusts
  | [], ds => some ds
  | r :: rs, ds =>
    match Dusts.Update W H r ds with
    | none => none
    | some ds1 => runUpdates W H rs ds1

/-! ### Invariants of the advance-and-cull pass -/

theorem decY_length (heap : List Dust) (i : Nat) : (decY heap i).length = heap.length := by
  induction heap generalizing i with
  | nil => rfl
  | cons d ds ih =>
    cases i with
    | zero => rfl
    | succ n => simp [decY, ih]

theorem getElem?_decY (heap : List Dust) (i k : Nat) :
    (decY heap i)[k]? = if i = k then (heap[k]?).map Dust.Update else heap[k]? := by
  induction heap generalizing i k with
  | nil => simp [decY]
  | cons d ds ih =>
    cases i with
    | zero =>
      cases k with
      | zero => simp [decY]
      | succ m => simp [decY]
    | succ n =>
      cases k with
      | zero => simp [decY]
      | succ m => simpa [decY] using ih n m

theorem removeShift_length (B : List Nat) (i L : Nat)
    (hiL : i + 1 ≤ L) (hLB : L ≤ B.length) :
    (removeShift B i L).length = B.length := by
  simp only [removeShift, List.length_append, List.length_take, List.length_drop]
  omega

theorem removeShift_getElem?_high (B : List Nat) (i L j : Nat)
    (hiL : i + 1 ≤ L) (hLB : L ≤ B.length) (hj : L ≤ j + 1) :
    (removeShift B i L)[j]? = B[j]? := by
  have hpl : (B.take i ++ (B.drop (i + 1)).take (L - i - 1)).length = L - 1 := by
    simp only [List.length_append, List.length_take, List.length_drop]
    omega
  have hge : (B.take i ++ (B.drop (i + 1)).take (L - i - 1)).length ≤ j := by
    rw [hpl]; omega
  rw [removeShift, List.getElem?_append_right hge, hpl, List.getElem?_drop]
  congr 1
  omega

theorem passStep_inv (p q : PassState) (i : Nat)
    (hL : p.live ≤ p.back.length) (h : passStep p i = some q) :
    q.heap.length = p.heap.length ∧
    q.back.length = p.back.length ∧
    q.live ≤ p.live ∧
    q.live ≤ q.back.length ∧
    (∀ (k : Nat) (du' : Dust), q.heap[k]? = some du' →
      ∃ du, p.heap[k]? = some du ∧ du'.y ≤ du.y ∧ du'.x = du.x) ∧
    (∀ j : Nat, p.live ≤ j + 1 → q.back[j]? = p.back[j]?) := by
  have hmono : ∀ (d k : Nat) (du' : Dust), (decY p.heap d)[k]? = some du' →
      ∃ du, p.heap[k]? = some du ∧ du'.y ≤ du.y ∧ du'.x = du.x := by
    intro d k du' hdu
    rw [getElem?_decY] at hdu
    by_cases hdk : d = k
    · rw [if_pos hdk] at hdu
      cases hph : p.heap[k]? with
      | some du =>
        rw [hph] at hdu
        simp only [Option.map_some'] at hdu
        injection hdu with hdu
        subst hdu
        refine ⟨du, rfl, ?_, rfl⟩
        simp only [Dust.Update]
        omega
      | none => rw [hph] at hdu; simp at hdu
    · rw [if_neg hdk] at hdu
      exact ⟨du', hdu, le_refl _, rfl⟩
  cases hb : p.back[i]? with
  | none => simp [passStep, hb] at h
  | some d =>
    simp only [passStep, hb] at h
    by_cases hy : yAt (decY p.heap d) d < 0
    · rw [if_pos hy] at h
      by_cases hil : i + 1 ≤ p.live
      · rw [if_pos hil] at h
        injection h with h
        subst h
        refine ⟨decY_length _ _, removeShift_length _ _ _ hil hL, Nat.sub_le _ _, ?_,
          hmono d, ?_⟩
        · show p.live - 1 ≤ (removeShift p.back i p.live).length
          rw [removeShift_length _ _ _ hil hL]; omega
        · intro j hj
          exact removeShift_getElem?_high _ _ _ _ hil hL hj
      · rw [if_neg hil] at h; simp at h
    · rw [if_neg hy] at h
      injection h with h
      subst h
      exact ⟨decY_length _ _, rfl, le_refl _, hL, hmono d, fun j _ => rfl⟩

theorem runPassAux_inv (is : List Nat) (p q : PassState)
    (hL : p.live ≤ p.back.length) (h : runPassAux p is = some q) :
    q.heap.length = p.heap.length ∧
    q.back.length = p.back.length ∧
    q.live ≤ p.live ∧
    (∀ (k : Nat) (du' : Dust), q.heap[k]? = some du' →
      ∃ du, p.heap[k]? = some du ∧ du'.y ≤ du.y ∧ du'.x = du.x) ∧
    (∀ j : Nat, p.live ≤ j + 1 → q.back[j]? = p.back[j]?) := by
  induction is generalizing p with
  | nil =>
    simp only [runPassAux, Option.some.injEq] at h
    subst h
    exact ⟨rfl, rfl, le_refl _, fun k du' hk => ⟨du', hk, le_refl _, rfl⟩, fun j _ => rfl⟩
  | cons i is ih =>
    cases hs : passStep p i with
    | none => simp [runPassAux, hs] at h
    | some m =>
      simp only [runPassAux, hs] at h
      obtain ⟨mh, mb, ml, mlb, mmono, mslot⟩ := passStep_inv p m i hL hs
      obtain ⟨qh, qb, ql, qmono, qslot⟩ := ih m mlb h
      refine ⟨qh.trans mh, qb.trans mb, ql.trans ml, ?_, ?_⟩
      · intro k du' hk
        obtain ⟨dm, hdm, hy1, hx1⟩ := qmono k du' hk
        obtain ⟨du, hdu, hy2, hx2⟩ := mmono k dm hdm
        exact ⟨du, hdu, hy1.trans hy2, hx1.trans hx2⟩
      · intro j hj
        rw [qslot j (le_trans ml hj), mslot j hj]

theorem runPassAux_append (p : PassState) (xs ys : List Nat) :
    runPassAux p (xs ++ ys) =
      match runPassAux p xs with
      | none => none
      | some q => runPassAux q ys := by
  induction xs generalizing p with
  | nil => rfl
  | cons i is ih =>
    simp only [List.cons_append, runPassAux]
    cases passStep p i <;> simp [ih]

theorem update_inv (W : Nat) (H : Int) (r : Nat) (ds ds' : Dusts)
    (h : Dusts.Update W H r ds = some ds') :
    ∃ p : PassState,
      runPassAux ⟨(spawnStep W H r ds).heap, (spawnStep W H r ds).ids,
          (spawnStep W H r ds).ids.length⟩
        (List.range (spawnStep W H r ds).ids.length) = some p ∧
      ds'.heap = p.heap ∧ ds'.ids = p.back.take p.live := by
  simp only [Dusts.Update] at h
  cases hr : runPassAux ⟨(spawnStep W H r ds).heap, (spawnStep W H r ds).ids,
      (spawnStep W H r ds).ids.length⟩ (List.range (spawnStep W H r ds).ids.length) with
  | none => rw [hr] at h; simp at h
  | some p =>
    rw [hr] at h
    injection h with h
    exact ⟨p, rfl, by rw [← h], by rw [← h]⟩

theorem spawnStep_ids_length (W : Nat) (H : Int) (r : Nat) (ds : Dusts)
    (hlen : ds.ids.length ≤ maxDusts) :
    (spawnStep W H r ds).ids.length ≤ maxDusts := by
  simp only [spawnStep]
  split
  · simp only [List.length_append, List.length_cons, List.length_nil]
    omega
  · exact hlen

theorem update_capacity (W : Nat) (H : Int) (r : Nat) (ds ds' : Dusts)
    (hlen : ds.ids.length ≤ maxDusts) (h : Dusts.Update W H r ds = some ds') :
    ds'.ids.length ≤ maxDusts := by
  obtain ⟨p, hr, _, hids⟩ := update_inv W H r ds ds' h
  obtain ⟨_, _, hlive, _, _⟩ := runPassAux_inv _ _ _ (le_refl _) hr
  rw [hids]
  simp only [List.length_take]
  exact le_trans (le_trans (min_le_left _ _) hlive) (spawnStep_ids_length W H r ds hlen)

theorem runUpdates_capacity (W : Nat) (H : Int) (rs : List Nat) (ds ds' : Dusts)
    (hlen : ds.ids.length ≤ maxDusts) (h : runUpdates W H rs ds = some ds') :
    ds'.ids.length ≤ maxDusts := by
  induction rs generalizing ds with
  | nil =>
    simp only [runUpdates, Option.some.injEq] at h
    subst h
    exact hlen
  | cons r rs ih =>
    cases hu : Dusts.Update W H r ds with
    | none => simp [runUpdates, hu] at h
    | some ds1 =>
      simp only [runUpdates, hu] at h
      exact ih ds1 (update_capacity W H r ds ds1 hlen hu) h

/-- C5: starting from the empty particle collection, for every sequence
of per-tick `Dusts.Update` calls (each with its own random draw), the
number of dust entities held at the start of any tick never exceeds the
capacity `maxDusts = 5`: at most one dust is spawned per tick, and only
when the current count is below capacity, while the cull pass never
grows the slice. -/
theorem dusts_capacity_bound (W : Nat) (H : Int) (rs : List Nat) (ds' : Dusts)
    (h : runUpdates W H rs emptyDusts = some ds') :
    ds'.ids.length ≤ maxDusts :=
  runUpdates_capacity W H rs emptyDusts ds' (by simp [emptyDusts, maxDusts]) h

/-- Witness for C5 at a concrete run: seven ticks on a 1×2 board. -/
theorem dusts_capacity_bound_witness :
    ∃ ds' : Dusts, runUpdates 1 2 [0, 0, 0, 0, 0, 0, 0] emptyDusts = some ds' ∧
      ds'.ids.length ≤ maxDusts := by
  refine ⟨⟨[⟨0, -1⟩, ⟨0, -1⟩, ⟨0, -1⟩, ⟨0, -1⟩, ⟨0, 2⟩, ⟨0, -1⟩, ⟨0, 1⟩], [4, 6]⟩, ?_, ?_⟩
  · decide
  · exact dusts_capacity_bound 1 2 [0, 0, 0, 0, 0, 0, 0] _ (by decide)

/-- C3 (amended): the spawn check runs before the advance-and-cull pass,
but the pass ranges over the post-spawn slice, so the dust spawned in a
tick (heap index `ds.heap.length`) is advanced at least once in that
same tick: immediately after the `Dusts.Update` in which it was spawned
its y-coordinate is at most `boardHeight` (not `boardHeight + 1`). -/
theorem spawned_dust_y_le_board_height (W : Nat) (H : Int) (r : Nat) (ds ds' : Dusts)
    (hlen : ds.ids.length < maxDusts) (h : Dusts.Update W H r ds = some ds') :
    ∃ d : Dust, ds'.heap[ds.heap.length]? = some d ∧ d.y ≤ H ∧
      d.x = ((r % W : Nat) : Int) := by
  obtain ⟨p, hr, hheap, _⟩ := update_inv W H r ds ds' h
  have hsp : spawnStep W H r ds =
      ⟨ds.heap ++ [⟨((r % W : Nat) : Int), H + 1⟩], ds.ids ++ [ds.heap.length]⟩ := by
    simp [spawnStep, hlen]
  rw [hsp] at hr
  simp only at hr
  have hlenids : (ds.ids ++ [ds.heap.length]).length = ds.ids.length + 1 := by simp
  rw [hlenids, List.range_succ, runPassAux_append] at hr
  cases hm : runPassAux ⟨ds.heap ++ [⟨((r % W : Nat) : Int), H + 1⟩],
      ds.ids ++ [ds.heap.length], ds.ids.length + 1⟩ (List.range ds.ids.length) with
  | none => rw [hm] at hr; simp at hr
  | some pm =>
    rw [hm] at hr
    obtain ⟨hmh, hmb, hml, hmmono, hmslot⟩ :=
      runPassAux_inv (List.range ds.ids.length) _ pm (by simp [hlenids]) hm
    have hback : pm.back[ds.ids.length]? = some ds.heap.length := by
      rw [hmslot ds.ids.length (by simp [hlenids])]
      exact List.getElem?_concat_length ds.ids ds.heap.length
    have hsidlt : ds.heap.length < pm.heap.length := by
      rw [hmh]
      simp
    cases hpm : pm.heap[ds.heap.length]? with
    | none =>
      have := List.getElem?_eq_getElem hsidlt
      rw [hpm] at this
      simp at this
    | some du =>
      obtain ⟨du0, hdu0, hyle, hxeq⟩ := hmmono ds.heap.length du hpm
      have hdu0' : du0 = ⟨((r % W : Nat) : Int), H + 1⟩ := by
        have hcat := List.getElem?_concat_length ds.heap
          (⟨((r % W : Nat) : Int), H + 1⟩ : Dust)
        simp only at hdu0
        rw [hcat] at hdu0
        injection hdu0 with e
        exact e.symm
      -- the last iteration of the pass visits the spawned dust
      simp only [runPassAux] at hr
      cases hstep : passStep pm ds.ids.length with
      | none => rw [hstep] at hr; simp at hr
      | some pf =>
        rw [hstep] at hr
        simp only [runPassAux, Option.some.injEq] at hr
        have hpfheap : pf.heap = decY pm.heap ds.heap.length := by
          simp only [passStep, hback] at hstep
          by_cases hy : yAt (decY pm.heap ds.heap.length) ds.heap.length < 0
          · rw [if_pos hy] at hstep
            by_cases hil : ds.ids.length + 1 ≤ pm.live
            · rw [if_pos hil] at hstep
              injection hstep with e
              rw [← e]
            · rw [if_neg hil] at hstep; simp at hstep
          · rw [if_neg hy] at hstep
            injection hstep with e
            rw [← e]
        refine ⟨du.Update, ?_, ?_, ?_⟩
        · rw [hheap, ← hr, hpfheap, getElem?_decY, if_pos rfl, hpm]
          rfl
        · have : du.y ≤ H + 1 := by rw [hdu0'] at hyle; exact hyle
          simp only [Dust.Update]
          omega
        · rw [hdu0'] at hxeq
          simpa [Dust.Update] using hxeq

/-- Witness for the amended C3: one tick from empty on a 1×5 board
leaves the spawned dust at y = 5 = boardHeight. -/
theorem spawned_dust_y_le_board_height_witness :
    ∃ d : Dust, (⟨[⟨0, 5⟩], [0]⟩ : Dusts).heap[(emptyDusts).heap.length]? = some d ∧
      d.y ≤ 5 ∧ d.x = ((0 % 1 : Nat) : Int) :=
  spawned_dust_y_le_board_height 1 5 0 emptyDusts ⟨[⟨0, 5⟩], [0]⟩ (by decide) (by decide)

/-- Counterexample to C3 as stated: on a 1×2 board the very first
`Dusts.Update` from the empty collection leaves the dust it spawned at
y = 2 = boardHeight, not at boardHeight + 1 = 3 — the advance pass runs
over the post-spawn slice, so the new dust is advanced in its spawn
tick. -/
theorem spawned_dust_same_tick_cex :
    Dusts.Update 1 2 0 emptyDusts = some ⟨[⟨0, 2⟩], [0]⟩ ∧
      ((⟨0, 2⟩ : Dust).y = (2 : Int) + 1) = False := by
  constructor
  · decide
  · decide

/-- C10: `Dust.Update` changes only the y-coordinate (decrementing it by
one), and across any `Dusts.Update` every dust already allocated keeps
its x-coordinate unchanged. -/
theorem dust_update_preserves_x (W : Nat) (H : Int) (r : Nat) (ds ds' : Dusts)
    (h : Dusts.Update W H r ds = some ds') :
    (∀ d : Dust, (Dust.Update d).x = d.x ∧ (Dust.Update d).y = d.y - 1) ∧
    (∀ (k : Nat) (du : Dust), ds.heap[k]? = some du →
      ∃ du', ds'.heap[k]? = some du' ∧ du'.x = du.x) := by
  obtain ⟨p, hr, hheap, _⟩ := update_inv W H r ds ds' h
  refine ⟨fun d => ⟨rfl, rfl⟩, ?_⟩
  intro k du hdu
  have hk : k < ds.heap.length := by
    rcases List.getElem?_eq_some.mp hdu with ⟨hlt, _⟩
    exact hlt
  have hsp : (spawnStep W H r ds).heap[k]? = some du := by
    simp only [spawnStep]
    split
    · simp only [List.getElem?_append, if_pos hk]
      exact hdu
    · exact hdu
  obtain ⟨hlen_eq, _, _, hmono, _⟩ := runPassAux_inv _ _ _ (le_refl _) hr
  have hk2 : k < p.heap.length := by
    rw [hlen_eq]
    have hle : ds.heap.length ≤ (spawnStep W H r ds).heap.length := by
      simp only [spawnStep]
      split <;> simp
    show k < (spawnStep W H r ds).heap.length
    omega
  cases hpk : p.heap[k]? with
  | none =>
    have := List.getElem?_eq_getElem hk2
    rw [hpk] at this
    simp at this
  | some du' =>
    obtain ⟨du0, hdu0, _, hx⟩ := hmono k du' hpk
    have hdu0' : du0 = du := by
      have : (spawnStep W H r ds).heap[k]? = some du0 := hdu0
      rw [hsp] at this
      injection this with e
      exact e.symm
    exact ⟨du', by rw [hheap]; exact hpk, by rw [hx, hdu0']⟩

/-- Witness for C10 at a concrete tick. -/
theorem dust_update_preserves_x_witness :
    ((∀ d : Dust, (Dust.Update d).x = d.x ∧ (Dust.Update d).y = d.y - 1) ∧
    (∀ (k : Nat) (du : Dust), (⟨[⟨0, 2⟩], [0]⟩ : Dusts).heap[k]? = some du →
      ∃ du', (⟨[⟨0, 1⟩, ⟨0, 2⟩], [0, 1]⟩ : Dusts).heap[k]? = some du' ∧ du'.x = du.x)) :=
  dust_update_preserves_x 1 2 0 ⟨[⟨0, 2⟩], [0]⟩ ⟨[⟨0, 1⟩, ⟨0, 2⟩], [0, 1]⟩ (by decide)

/-- C1 is violated by the code: on a 1×2 board, after three ticks from
empty the collection holds dusts 0,1,2 at y = 0,1,2; the fourth
`Dusts.Update` spawns dust 3 at y = 3 (so dusts 0,1,2,3 are all held at
the start of the advance pass) and then removes dust 0 (y hits -1)
in-place while ranging over the stale slice header.  The shift makes the
pass skip dust 1 entirely — its y stays 1 instead of dropping to 0 — and
visit the stale tail slot, advancing dust 3 twice (y = 3 to 1 instead of
2).  So dusts held at the start of the pass are not all decremented by
exactly 1, and the pass both skips an entry and double-processes one
through stale storage. -/
theorem dusts_update_skips_and_double_advances :
    runUpdates 1 2 [0, 0, 0] emptyDusts =
      some ⟨[⟨0, 0⟩, ⟨0, 1⟩, ⟨0, 2⟩], [0, 1, 2]⟩ ∧
    (spawnStep 1 2 0 ⟨[⟨0, 0⟩, ⟨0, 1⟩, ⟨0, 2⟩], [0, 1, 2]⟩).ids = [0, 1, 2, 3] ∧
    Dusts.Update 1 2 0 ⟨[⟨0, 0⟩, ⟨0, 1⟩, ⟨0, 2⟩], [0, 1, 2]⟩ =
      some ⟨[⟨0, -1⟩, ⟨0, 1⟩, ⟨0, 1⟩, ⟨0, 1⟩], [1, 2, 3]⟩ := by
  refine ⟨by decide, by decide, by decide⟩

/-- C4 is violated by the code: on a 1×2 board (boardHeight + 2 = 4),
dust 1 is spawned in the second tick, so after the fifth tick exactly
boardHeight + 2 = 4 updates counted from its spawn tick have run — yet
it is still in the collection with y = 0 (not negative, not removed),
because the fourth tick's removal pass skipped it.  (Dust 0, spawned in
tick 1 and undisturbed, is indeed removed with negative y during tick
4 = boardHeight + 2 counted inclusively, which fixes the claim's
counting convention.) -/
theorem dust_removal_not_after_exactly_board_height_plus_two :
    runUpdates 1 2 [0, 0, 0, 0] emptyDusts =
      some ⟨[⟨0, -1⟩, ⟨0, 1⟩, ⟨0, 1⟩, ⟨0, 1⟩], [1, 2, 3]⟩ ∧
    runUpdates 1 2 [0, 0, 0, 0, 0] emptyDusts =
      some ⟨[⟨0, -1⟩, ⟨0, 0⟩, ⟨0, 0⟩, ⟨0, 0⟩, ⟨0, 2⟩], [1, 2, 3, 4]⟩ ∧
    1 ∈ ([1, 2, 3, 4] : List Nat) ∧
    ((0 : Int) < 0) = False := by
  refine ⟨by decide, by decide, by decide, by decide⟩

/-! ## Sprite sheet loader (`assets` package)

The frame metadata model and `loadSprite`/`LoadImage`.  The embedded
asset filesystem, the JSON decoder and the PNG decoder are external
collaborators; they are passed in as a `LoadEnv` capability: `openAsset`
is `assets.Open` combined with `ioutil.ReadAll` (`none` = open/read
error), `unmarshal` is `json.Unmarshal` (`none` = decode error, in which
case the target struct keeps its zero value, as in Go), and `pngDecode`
is `png.Decode` (`none` = decode error).  A decoded image is abstracted
as its byte contents.  `log.Fatalf`/`log.Fatal` terminate the process;
they are modelled by the `FatalOr.fatal` outcome. -/

/-- Result of a Go function that can call `log.Fatal`: either the
process terminates with a diagnostic, or the value is produced. -/
inductive FatalOr (α : Type) where
  | fatal (msg : String)
  | ok (val : α)
deriving Repr, DecidableEq

/-- `FramePosition`: top-left coordinates and dimensions of a frame. -/
structure FramePosition where
  x : Int
  y : Int
  w : Int
  h : Int
deriving Repr, DecidableEq

/-- `Frame`: a single animation frame. -/
structure Frame where
  duration : Int
  position : FramePosition
deriving Repr, DecidableEq

/-- `FrameTags`: tag data identifying a named sub-range of frames. -/
structure FrameTags where
  name : String
  frFrom : Int
  frTo : Int
  direction : String
deriving Repr, DecidableEq

/-- `SpriteMeta`: sprite meta-data. -/
structure SpriteMeta where
  imageName : String
  frameTags : List FrameTags
deriving Repr, DecidableEq

/-- `SpriteSheet`: frames, meta data and the attached decoded image
(`none` models Go's nil `*ebiten.Image`). -/
structure SpriteSheet where
  sprite : List Frame
  meta : SpriteMeta
  image : Option (List Nat)
deriving Repr, DecidableEq

/-- The Go zero value of `SpriteSheet` (what `var ss SpriteSheet`
declares before unmarshalling). -/
def zeroSpriteSheet : SpriteSheet := ⟨[], ⟨"", []⟩, none⟩

/-- External collaborators of the loaders, as an injected capability. -/
structure LoadEnv where
  openAsset : String → Option (List Nat)
  unmarshal : List Nat → Option SpriteSheet
  pngDecode : List Nat → Option (List Nat)

/-- `func LoadImage(name string) *ebiten.Image`: open the named resource
(fatal on error), decode it as PNG (fatal on error) and wrap it. -/
def LoadImage (env : LoadEnv) (name : String) : FatalOr (List Nat) :=
  match env.openAsset name with
  | none => .fatal ("error opening file " ++ name)
  | some raw =>
    match env.pngDecode raw with
    | none => .fatal ("error decoding file " ++ name ++ " as PNG")
    | some img => .ok img

/-- `func loadSprite(name string) *SpriteSheet`: join the asset path,
open and read `name + ".json"` (fatal on open or read error), unmarshal
it into `ss` — the source DISCARDS the error returned by
`json.Unmarshal` (it re-checks the stale, already-nil error of the
preceding `ReadAll`), so a failed unmarshal silently leaves `ss` at its
zero value — then attach the image loaded from `name + ".png"`. -/
def loadSprite (env : LoadEnv) (name0 : String) : FatalOr SpriteSheet :=
  let name := "assets/sprites/" ++ name0
  match env.openAsset (name ++ ".json") with
  | none => .fatal ("error opening file " ++ name)
  | some data =>
    let ss := (env.unmarshal data).getD zeroSpriteSheet
    match LoadImage env (name ++ ".png") with
    | .fatal m => .fatal m
    | .ok img => .ok { ss with image := some img }

/-- A `LoadEnv` whose sprite description `demo.json` is present but
malformed (every unmarshal fails) while `demo.png` is present and
decodes; used to exercise the discarded-unmarshal-error path. -/
def envMalformedJson : LoadEnv where
  openAsset := fun n =>
    if n = "assets/sprites/demo.json" then some [0]
    else if n = "assets/sprites/demo.png" then some [7]
    else none
  unmarshal := fun _ => none
  pngDecode := fun b => some b

/-- A `LoadEnv` whose sprite description is present and well-formed but
whose image resource is absent. -/
def envMissingPng : LoadEnv where
  openAsset := fun n =>
    if n = "assets/sprites/demo.json" then some [0] else none
  unmarshal := fun _ => some zeroSpriteSheet
  pngDecode := fun b => some b

/-- C2 is violated by the code: with `demo.json` present but malformed,
`loadSprite` does NOT terminate fatally — `json.Unmarshal`'s error is
discarded (the code re-checks the stale error of the preceding
`ReadAll`), so the call silently returns the zero-valued `SpriteSheet`
(empty frames, empty meta) with only the image attached.  A missing
image resource, by contrast, is correctly fatal, as the claim says. -/
theorem loadSprite_malformed_json_silent :
    loadSprite envMalformedJson "demo" =
      .ok { sprite := [], meta := ⟨"", []⟩, image := some [7] } ∧
    loadSprite envMissingPng "demo" =
      .fatal "error opening file assets/sprites/demo.png" := by
  refine ⟨by decide, by decide⟩

/-! ## Sound variant pool (`assets` package)

`Sound` holds the audio players for one logical sound.  The embedded
asset filesystem and the Vorbis decoder are injected as an `AudioEnv`;
the playback backend's `*audio.Player` is modelled as an `APlayer`
record exposing exactly the state the pool manipulates: the source file,
whether it was wrapped in an infinite loop (`NewMusicPlayer`) or not
(`NewSoundPlayer`), its volume, whether it is playing, and its playhead
position (`Rewind` sets it to 0).  Go's `float64` volume is modelled as
`ℚ`: the pool only assigns and compares volumes (no arithmetic), so no
rounding behaviour is lost.  `audio.NewPlayer`'s own failure mode (a
playback-context mismatch, fatal in `NewSoundPlayer`/`NewMusicPlayer`)
concerns only the external backend and is not modelled.  The `context`
parameter carries no state used by this code and is omitted. -/

/-- The slice of backend `*audio.Player` state that the sound pool
reads or writes. -/
structure APlayer where
  file : String
  looping : Bool
  volume : ℚ
  playing : Bool
  pos : Nat
deriving Repr, DecidableEq

/-- A decoded audio stream, as returned by `vorbis.DecodeWithSampleRate`. -/
structure AStream where
  file : String
  sampleRate : Nat
deriving Repr, DecidableEq

/-- External collaborators of the audio loader. -/
structure AudioEnv where
  openAsset : String → Option (List Nat)
  vorbisOk : List Nat → Bool

/-- `func LoadSoundFile(name string, sampleRate int) *vorbis.Stream`:
open the named resource (fatal on error) and decode it as Vorbis (fatal
on error). -/
def LoadSoundFile (env : AudioEnv) (name : String) (sampleRate : Nat) : FatalOr AStream :=
  match env.openAsset name with
  | none => .fatal ("error opening file " ++ name)
  | some raw =>
    if env.vorbisOk raw then .ok ⟨name, sampleRate⟩
    else .fatal ("error decoding file " ++ name ++ " as Vorbis")

/-- `func NewSoundPlayer(...)`: bind a stream to the playback context as
a plain (non-looping) player. -/
def NewSoundPlayer (st : AStream) : APlayer :=
  ⟨st.file, false, 1, false, 0⟩

/-- `func NewMusicPlayer(...)`: wrap the stream in an infinite loop and
bind it, producing a looping player. -/
def NewMusicPlayer (st : AStream) : APlayer :=
  ⟨st.file, true, 1, false, 0⟩

/-- `type Sound struct { Audio []*audio.Player; LastPlayed int; Volume
float64 }`.  `LastPlayed` is a Go `int`; it is modelled as `Nat` because
every value the code ever stores in it is a non-negative in-range index
(the zero value, `rand.Intn` results, and `PlayVariant` arguments, whose
negative values would equally crash the indexing). -/
structure Sound where
  Audio : List APlayer
  LastPlayed : Nat
  Volume : ℚ
deriving Repr, DecidableEq

/-- The Go zero value `Sound{}`. -/
def zeroSound : Sound := ⟨[], 0, 0⟩

/-- `func (s *Sound) AddMusic(f string, sampleRate int, context ...)`:
append one looping player for `f + ".ogg"`. -/
def Sound.AddMusic (env : AudioEnv) (s : Sound) (f : String) (sampleRate : Nat) :
    FatalOr Sound :=
  match LoadSoundFile env (f ++ ".ogg") sampleRate with
  | .fatal m => .fatal m
  | .ok st => .ok { s with Audio := s.Audio ++ [NewMusicPlayer st] }

/-- The per-iteration filename of `AddSound`: the bare name when the
declared variant count is exactly 1, otherwise the 1-based
`-<i+1>`-suffixed name (`strconv.Itoa(i+1)`). -/
def soundVariantName (f : String) (variants : Int) (i : Nat) : String :=
  if variants = 1 then f ++ ".ogg" else f ++ "-" ++ toString (i + 1) ++ ".ogg"

/-- The `for i := 0; i < variants; i++` loop body of `AddSound`: load
each variant file (fatal aborts the remaining iterations, as
`log.Fatal` terminates the process) and append a non-looping player. -/
def addSoundLoop (env : AudioEnv) (f : String) (sampleRate : Nat) (variants : Int) :
    FatalOr Sound → List Nat → FatalOr Sound
  | acc, [] => acc
  | .fatal m, _ :: _ => .fatal m
  | .ok s1, i :: is =>
    match LoadSoundFile env (soundVariantName f variants i) sampleRate with
    | .fatal m => .fatal m
    | .ok st =>
      addSoundLoop env f sampleRate variants
        (.ok { s1 with Audio := s1.Audio ++ [NewSoundPlayer st] }) is

/-- `func (s *Sound) AddSound(f string, sampleRate int, context ...,
v ...int)`: the variadic `v` defaults the variant count to 1; the loop
runs for `i` in `[0, variants)` (an `Int` count `≤ 0` yields zero
iterations, as in Go). -/
def Sound.AddSound (env : AudioEnv) (s : Sound) (f : String) (sampleRate : Nat)
    (v : List Int) : FatalOr Sound :=
  let variants : Int := match v with | [] => 1 | x :: _ => x
  addSoundLoop env f sampleRate variants (.ok s) (List.range variants.toNat)

/-- `func (s *Sound) SetVolume(v float64)`: store the volume only when
`0 <= v && v <= 1`; otherwise silently keep the prior value. -/
def Sound.SetVolume (s : Sound) (v : ℚ) : Sound :=
  if 0 ≤ v ∧ v ≤ 1 then { s with Volume := v } else s

/-- `func (s *Sound) PlayVariant(i int)`: record `LastPlayed = i`, then
`s.Audio[i].SetVolume(s.Volume); s.Audio[i].Rewind(); s.Audio[i].Play()`.
An out-of-range index panics on the slice access (modelled `none`). -/
def Sound.PlayVariant (s : Sound) (i : Nat) : Option Sound :=
  match s.Audio[i]? with
  | none => none
  | some p =>
    some { s with
      LastPlayed := i,
      Audio := s.Audio.set i { p with volume := s.Volume, pos := 0, playing := true } }

/-- `func (s *Sound) Play()`: no-op when there are no variants, variant
0 when there is exactly one, otherwise `rand.Intn(length)` — modelled as
`r % length` for an arbitrary draw `r`. -/
def Sound.Play (s : Sound) (r : Nat) : Option Sound :=
  let length := s.Audio.length
  if length = 0 then some s
  else s.PlayVariant (if 1 < length then r % length else 0)

/-- `func (s *Sound) Pause()`: pause the variant at `LastPlayed`
(panics, modelled `none`, when that index is out of range — e.g. an
empty pool). -/
def Sound.Pause (s : Sound) : Option Sound :=
  match s.Audio[s.LastPlayed]? with
  | none => none
  | some p =>
    some { s with Audio := s.Audio.set s.LastPlayed { p with playing := false } }

/-- C6: `Play` on a pool with zero variants is a no-op (the state is
returned unchanged and nothing is played); with exactly one variant it
deterministically plays variant 0 (the same call as `PlayVariant 0`,
independent of the random draw); with more than one variant the played
index — recorded in `LastPlayed` — always lies in `[0, N)`. -/
theorem sound_play_spec (s : Sound) (r : Nat) :
    (s.Audio.length = 0 → s.Play r = some s) ∧
    (s.Audio.length = 1 → s.Play r = s.PlayVariant 0) ∧
    (1 < s.Audio.length →
      ∃ s', s.Play r = some s' ∧ s'.LastPlayed < s.Audio.length) := by
  refine ⟨?_, ?_, ?_⟩
  · intro h0
    simp [Sound.Play, h0]
  · intro h1
    simp [Sound.Play, h1]
  · intro h2
    have hne : ¬ s.Audio.length = 0 := by omega
    have hidx : r % s.Audio.length < s.Audio.length := Nat.mod_lt _ (by omega)
    simp only [Sound.Play, if_neg hne, if_pos h2]
    cases hp : s.Audio[r % s.Audio.length]? with
    | none =>
      have := List.getElem?_eq_getElem hidx
      rw [hp] at this
      simp at this
    | some p =>
      exact ⟨{ s with
          LastPlayed := r % s.Audio.length,
          Audio := s.Audio.set (r % s.Audio.length)
            { p with volume := s.Volume, pos := 0, playing := true } },
        by simp [Sound.PlayVariant, hp],
        hidx⟩

/-- Witness for C6: a one-variant pool plays variant 0 for any draw; a
two-variant pool records an in-range index. -/
theorem sound_play_spec_witness :
    ((⟨[NewSoundPlayer ⟨"a.ogg", 44100⟩], 0, 0⟩ : Sound).Play 7 =
      (⟨[NewSoundPlayer ⟨"a.ogg", 44100⟩], 0, 0⟩ : Sound).PlayVariant 0) ∧
    (∃ s', (⟨[NewSoundPlayer ⟨"a.ogg", 44100⟩, NewSoundPlayer ⟨"b.ogg", 44100⟩],
        0, 0⟩ : Sound).Play 7 = some s' ∧
      s'.LastPlayed <
        (⟨[NewSoundPlayer ⟨"a.ogg", 44100⟩, NewSoundPlayer ⟨"b.ogg", 44100⟩],
          0, 0⟩ : Sound).Audio.length) :=
  ⟨(sound_play_spec ⟨[NewSoundPlayer ⟨"a.ogg", 44100⟩], 0, 0⟩ 7).2.1 (by decide),
   (sound_play_spec ⟨[NewSoundPlayer ⟨"a.ogg", 44100⟩,
      NewSoundPlayer ⟨"b.ogg", 44100⟩], 0, 0⟩ 7).2.2 (by decide)⟩

/-- C7: for `v` in `[0, 1]`, `SetVolume v` stores `v` and a following
`Play` applies `v` to the played variant (the player at the recorded
`LastPlayed` index); for `v` outside `[0, 1]`, `SetVolume v` leaves the
pool — in particular its stored volume — entirely unchanged and signals
no error. -/
theorem sound_setvolume_spec (s : Sound) (v : ℚ) (r : Nat) :
    (0 ≤ v → v ≤ 1 → (s.SetVolume v).Volume = v ∧
      (0 < s.Audio.length → ∃ s', (s.SetVolume v).Play r = some s' ∧
        ∃ p, s'.Audio[s'.LastPlayed]? = some p ∧ p.volume = v)) ∧
    (¬ (0 ≤ v ∧ v ≤ 1) → s.SetVolume v = s) := by
  constructor
  · intro h0 h1
    have hset : s.SetVolume v = { s with Volume := v } := by
      simp [Sound.SetVolume, h0, h1]
    refine ⟨by rw [hset], ?_⟩
    intro hlen
    rw [hset]
    have hne : ¬ s.Audio.length = 0 := by omega
    have hidx : (if 1 < s.Audio.length then r % s.Audio.length else 0) <
        s.Audio.length := by
      split
      · exact Nat.mod_lt _ (by omega)
      · omega
    simp only [Sound.Play, Sound.PlayVariant, if_neg hne]
    cases hp : s.Audio[if 1 < s.Audio.length then r % s.Audio.length else 0]? with
    | none =>
      have := List.getElem?_eq_getElem hidx
      rw [hp] at this
      simp at this
    | some p =>
      refine ⟨_, rfl, ?_⟩
      refine ⟨{ p with volume := v, pos := 0, playing := true }, ?_, rfl⟩
      simp [List.getElem?_set, hidx]
  · intro hnot
    simp [Sound.SetVolume, hnot]

/-- Witness for C7: setting volume 1 on a one-variant pool and playing
applies volume 1 to the played variant. -/
theorem sound_setvolume_spec_witness :
    (((⟨[NewSoundPlayer ⟨"c.ogg", 44100⟩], 0, 0⟩ : Sound).SetVolume 1).Volume
        = 1) ∧
    (∃ s', ((⟨[NewSoundPlayer ⟨"c.ogg", 44100⟩], 0, 0⟩ : Sound).SetVolume
        1).Play 3 = some s' ∧
      ∃ p, s'.Audio[s'.LastPlayed]? = some p ∧ p.volume = 1) :=
  ⟨((sound_setvolume_spec ⟨[NewSoundPlayer ⟨"c.ogg", 44100⟩], 0, 0⟩ 1 3).1
      (by decide) (by decide)).1,
   ((sound_setvolume_spec ⟨[NewSoundPlayer ⟨"c.ogg", 44100⟩], 0, 0⟩ 1 3).1
      (by decide) (by decide)).2 (by decide)⟩

theorem addSoundLoop_lastPlayed (env : AudioEnv) (f : String) (rate : Nat)
    (variants : Int) (is : List Nat) (s1 s' : Sound)
    (h : addSoundLoop env f rate variants (.ok s1) is = .ok s') :
    s'.LastPlayed = s1.LastPlayed := by
  induction is generalizing s1 with
  | nil =>
    simp only [addSoundLoop] at h
    injection h with e
    rw [← e]
  | cons i is ih =>
    simp only [addSoundLoop] at h
    cases hl : LoadSoundFile env (soundVariantName f variants i) rate with
    | fatal m => rw [hl] at h; simp at h
    | ok st =>
      rw [hl] at h
      have h' : addSoundLoop env f rate variants
          (.ok { s1 with Audio := s1.Audio ++ [NewSoundPlayer st] }) is = .ok s' := h
      exact ih { s1 with Audio := s1.Audio ++ [NewSoundPlayer st] } h'

/-- C8: `PlayVariant i` with an in-range `i` records `LastPlayed = i`,
and an immediately following `Pause` succeeds and pauses exactly variant
`i` (its `playing` flag drops to false, every other slot is untouched).
The zero-valued pool has `LastPlayed = 0`, none of the load-time
operations (`AddSound`, `AddMusic`, `SetVolume`) changes `LastPlayed`,
so before any `Play`/`PlayVariant` it is still 0 — and `Pause` on such a
pool with at least one variant pauses variant 0 instead of signalling
an error. -/
theorem sound_playvariant_pause_spec :
    (∀ (s : Sound) (i : Nat), i < s.Audio.length →
      ∃ s', s.PlayVariant i = some s' ∧ s'.LastPlayed = i ∧
        ∃ s'', s'.Pause = some s'' ∧
          (∃ p, s''.Audio[i]? = some p ∧ p.playing = false) ∧
          (∀ j : Nat, j ≠ i → s''.Audio[j]? = s'.Audio[j]?)) ∧
    zeroSound.LastPlayed = 0 ∧
    (∀ (env : AudioEnv) (s : Sound) (f : String) (rate : Nat) (v : List Int)
      (s' : Sound), Sound.AddSound env s f rate v = .ok s' →
        s'.LastPlayed = s.LastPlayed) ∧
    (∀ (env : AudioEnv) (s : Sound) (f : String) (rate : Nat) (s' : Sound),
      Sound.AddMusic env s f rate = .ok s' → s'.LastPlayed = s.LastPlayed) ∧
    (∀ (s : Sound) (v : ℚ), (s.SetVolume v).LastPlayed = s.LastPlayed) ∧
    (∀ s : Sound, s.LastPlayed = 0 → 0 < s.Audio.length →
      ∃ s'', s.Pause = some s'' ∧
        ∃ p, s''.Audio[0]? = some p ∧ p.playing = false) := by
  refine ⟨?_, rfl, ?_, ?_, ?_, ?_⟩
  · intro s i hi
    cases hp : s.Audio[i]? with
    | none =>
      have := List.getElem?_eq_getElem hi
      rw [hp] at this
      simp at this
    | some p =>
      set pnew : APlayer := { p with volume := s.Volume, pos := 0, playing := true }
        with hpnew
      set s1 : Sound := { s with LastPlayed := i, Audio := s.Audio.set i pnew }
        with hs1
      refine ⟨s1, by simp [Sound.PlayVariant, hp, hs1, hpnew], rfl, ?_⟩
      have hi1 : i < s1.Audio.length := by
        simp [hs1, List.length_set]
        exact hi
      have hp1 : s1.Audio[i]? = some pnew := by
        simp [hs1, List.getElem?_set, hi]
      set ppaused : APlayer := { pnew with playing := false } with hppaused
      refine ⟨{ s1 with Audio := s1.Audio.set i ppaused }, ?_, ⟨ppaused, ?_, rfl⟩, ?_⟩
      · show s1.Pause = _
        simp only [Sound.Pause]
        show (match s1.Audio[i]? with
          | none => none
          | some p =>
            some { s1 with Audio := s1.Audio.set i { p with playing := false } }) = _
        rw [hp1]
      · simp [List.getElem?_set, hi1, hi]
      · intro j hj
        have hij : ¬ i = j := fun e => hj e.symm
        simp [List.getElem?_set, hij]
  · intro env s f rate v s' h
    exact addSoundLoop_lastPlayed env f rate _ _ s s' h
  · intro env s f rate s' h
    simp only [Sound.AddMusic] at h
    cases hl : LoadSoundFile env (f ++ ".ogg") rate with
    | fatal m => rw [hl] at h; simp at h
    | ok st =>
      rw [hl] at h
      injection h with e
      rw [← e]
  · intro s v
    simp only [Sound.SetVolume]
    split <;> rfl
  · intro s h0 hlen
    cases hp : s.Audio[0]? with
    | none =>
      have := List.getElem?_eq_getElem hlen
      rw [hp] at this
      simp at this
    | some p =>
      refine ⟨{ s with Audio := s.Audio.set 0 { p with playing := false } }, ?_,
        ⟨{ p with playing := false }, ?_, rfl⟩⟩
      · simp only [Sound.Pause, h0]
        rw [hp]
      · simp [List.getElem?_set, hlen]

/-- Witness for C8: `PlayVariant 1` on a two-variant pool records index
1 and the following `Pause` pauses exactly variant 1; `Pause` before any
play on a one-variant pool pauses variant 0. -/
theorem sound_playvariant_pause_spec_witness :
    (∃ s', (⟨[NewSoundPlayer ⟨"a.ogg", 44100⟩, NewSoundPlayer ⟨"b.ogg", 44100⟩],
        0, 0⟩ : Sound).PlayVariant 1 = some s' ∧ s'.LastPlayed = 1 ∧
      ∃ s'', s'.Pause = some s'' ∧
        (∃ p, s''.Audio[1]? = some p ∧ p.playing = false) ∧
        (∀ j : Nat, j ≠ 1 → s''.Audio[j]? = s'.Audio[j]?)) ∧
    (∃ s'', (⟨[NewSoundPlayer ⟨"a.ogg", 44100⟩], 0, 0⟩ : Sound).Pause = some s'' ∧
      ∃ p, s''.Audio[0]? = some p ∧ p.playing = false) :=
  ⟨sound_playvariant_pause_spec.1
      ⟨[NewSoundPlayer ⟨"a.ogg", 44100⟩, NewSoundPlayer ⟨"b.ogg", 44100⟩], 0, 0⟩ 1
      (by decide),
   sound_playvariant_pause_spec.2.2.2.2.2
      ⟨[NewSoundPlayer ⟨"a.ogg", 44100⟩], 0, 0⟩ rfl (by decide)⟩

theorem addSoundLoop_ok (env : AudioEnv) (f : String) (rate : Nat) (variants : Int)
    (is : List Nat) (s1 : Sound)
    (hok : ∀ i ∈ is, LoadSoundFile env (soundVariantName f variants i) rate =
      .ok ⟨soundVariantName f variants i, rate⟩) :
    addSoundLoop env f rate variants (.ok s1) is =
      .ok { s1 with Audio := (s1.Audio ++
        is.map fun i => NewSoundPlayer ⟨soundVariantName f variants i, rate⟩) } := by
  induction is generalizing s1 with
  | nil => simp [addSoundLoop]
  | cons i is ih =>
    simp only [addSoundLoop]
    rw [hok i (by simp)]
    show addSoundLoop env f rate variants
      (.ok { s1 with Audio := (s1.Audio ++
        [NewSoundPlayer ⟨soundVariantName f variants i, rate⟩]) }) is = _
    rw [ih _ (fun j hj => hok j (by simp [hj]))]
    simp [List.append_assoc]

/-- C9: `AddSound` with a declared variant count `n` (defaulting to 1
when the variadic argument is omitted) loads exactly `n` clips and
appends each as a non-looping player; the file loaded is the bare
`<name>.ogg` when `n` is exactly 1 and the 1-based `<name>-1.ogg`,
`<name>-2.ogg`, ... when `n > 1`. -/
theorem sound_addsound_names (env : AudioEnv) (s : Sound) (f : String) (rate : Nat)
    (n : Nat)
    (hok : ∀ i : Nat, i < n → LoadSoundFile env (soundVariantName f (n : Int) i) rate =
      .ok ⟨soundVariantName f (n : Int) i, rate⟩) :
    (Sound.AddSound env s f rate [(n : Int)] =
      .ok { s with Audio := (s.Audio ++ (List.range n).map
        fun i => NewSoundPlayer ⟨soundVariantName f (n : Int) i, rate⟩) }) ∧
    ((List.range n).map
        (fun i => NewSoundPlayer ⟨soundVariantName f (n : Int) i, rate⟩)).length = n ∧
    (Sound.AddSound env s f rate [] = Sound.AddSound env s f rate [1]) ∧
    (∀ i : Nat, soundVariantName f 1 i = f ++ ".ogg") ∧
    (∀ i : Nat, (1 : Int) < (n : Int) →
      soundVariantName f (n : Int) i = f ++ "-" ++ toString (i + 1) ++ ".ogg") ∧
    (∀ st : AStream, (NewSoundPlayer st).looping = false) := by
  refine ⟨?_, by simp, rfl, ?_, ?_, fun st => rfl⟩
  · simp only [Sound.AddSound, Int.toNat_natCast]
    exact addSoundLoop_ok env f rate (n : Int) (List.range n) s
      (fun i hi => hok i (List.mem_range.mp hi))
  · intro i
    simp [soundVariantName]
  · intro i hlt
    rw [soundVariantName, if_neg (by omega)]

/-- Witness for C9: loading the three-variant sound "step" from an
environment where every asset is present appends the three suffixed,
non-looping players. -/
theorem sound_addsound_names_witness :
    Sound.AddSound ⟨fun _ => some [], fun _ => true⟩ zeroSound "step" 44100 [(3 : Int)] =
      .ok { zeroSound with Audio := (zeroSound.Audio ++ (List.range 3).map
        fun i => NewSoundPlayer ⟨soundVariantName "step" ((3 : Nat) : Int) i, 44100⟩) } :=
  (sound_addsound_names ⟨fun _ => some [], fun _ => true⟩ zeroSound "step" 44100 3
    (fun _ _ => rfl)).1
